import Mathlib

/-!
Verification development for the `opencode-dynamic-context-pruning` plugin.

The TypeScript sources are shallowly embedded as executable Lean
definitions:

* `lib/messages/prune.ts` (the Structural Mutator `prune` /
  `pruneMessages`) operates on host-native messages made of typed parts;
* `lib/state.ts` (`StateManager`) is the session State Store;
* `lib/janitor.ts` (`Janitor.run`) is the background Semantic Janitor;
* `lib/fetch-wrapper/formats/bedrock.ts` plus its shared helpers
  (`injectSynth`, `isNudgeMessage`, `trackNewToolResults`) form the
  Bedrock Format Descriptor.

JavaScript objects are modelled as Lean structures; `undefined`-able
fields as `Option`; JS `Map` as an association list preserving insertion
order (`mapGet` / `mapSet`); JS `Set` accumulation as first-occurrence
deduplication; `String.prototype.toLowerCase` as per-character
`Char.toLower` (`lowerStr`); `String.prototype.includes` as list-infix
containment (`strContains`).  Asynchronous methods never suspend
internally in the sources, so they are embedded as pure state-passing
functions; a thrown exception from an external call is an `Except.error`
input.
-/

namespace DCP

/-! ## Data model -/

/-- A JSON value stored in a tool-input object: either a string field or
some non-string payload (number, object, ...), which the mutator never
rewrites. -/
inductive JVal where
  | str (s : String)
  | other (n : Nat)
deriving DecidableEq

/-- Tool execution status, from `lib/state/types.ts`. -/
inductive ToolStatus where
  | pending
  | running
  | completed
  | error
deriving DecidableEq

/-- A tool-input object: a JS object with string keys, modelled as an
association list (keys unique in practice, insertion order kept). -/
abbrev InputObj := List (String × JVal)

/-- `part.state` of a tool part: status, optional output text, optional
input object. -/
structure ToolState where
  status : ToolStatus
  output : Option String
  input : Option InputObj
deriving DecidableEq

/-- A message part (host-native representation).  Non-tool parts carry
`type ≠ "tool"` and are never touched by the mutator. -/
structure Part where
  type : String
  callID : String
  tool : String
  state : ToolState
deriving DecidableEq

/-- A host-native message: `WithParts` from `lib/state/types.ts`. -/
structure Msg where
  parts : List Part
deriving DecidableEq

/-! ## Structural Mutator (`lib/messages/prune.ts`) -/

/-- Object property read: `obj[key]`, `undefined` when absent. -/
def lookupKey (l : InputObj) (k : String) : Option JVal :=
  (l.find? (fun p => p.1 = k)).map (fun p => p.2)

/-- Object property write `obj[key] = v` for a key already present. -/
def setKey (l : InputObj) (k : String) (v : JVal) : InputObj :=
  l.map (fun p => if p.1 = k then (k, v) else p)

def PRUNED_TOOL_INPUT_REPLACEMENT : String :=
  "[content removed to save context, this is not what was written to the file, but a placeholder]"

def PRUNED_TOOL_OUTPUT_REPLACEMENT : String :=
  "[Output removed to save context - information superseded or no longer needed]"

def PRUNED_TOOL_ERROR_INPUT_REPLACEMENT : String :=
  "[input removed due to failed tool call]"

/-- The error branch of `pruneMessages`: overwrite every string-valued
field of the input object with the failed-call placeholder. -/
def redactStrings (l : InputObj) : InputObj :=
  l.map (fun p =>
    match p.2 with
    | .str _ => (p.1, .str PRUNED_TOOL_ERROR_INPUT_REPLACEMENT)
    | _ => p)

/-- The `write` branch: overwrite `input.content` when it is defined. -/
def writeRedact (i : Option InputObj) : Option InputObj :=
  match i with
  | some l =>
    if (lookupKey l "content").isSome then
      some (setKey l "content" (.str PRUNED_TOOL_INPUT_REPLACEMENT))
    else some l
  | none => none

/-- The `edit` branch: overwrite `input.oldString` and `input.newString`
when each is defined. -/
def editRedact (i : Option InputObj) : Option InputObj :=
  match i with
  | some l =>
    let l1 := if (lookupKey l "oldString").isSome then
        setKey l "oldString" (.str PRUNED_TOOL_INPUT_REPLACEMENT)
      else l
    let l2 := if (lookupKey l1 "newString").isSome then
        setKey l1 "newString" (.str PRUNED_TOOL_INPUT_REPLACEMENT)
      else l1
    some l2
  | none => none

/-- Per-part body of the `pruneMessages` loop (`lib/messages/prune.ts`):
skip non-tool parts and parts whose `callID` is not in the pruned set,
then apply in order the output-prune, input-prune and error-prune steps
to `part.state`. -/
def prunePart (toolIds : List String) (part : Part) : Part :=
  if part.type ≠ "tool" then part
  else if ¬ toolIds.contains part.callID then part
  else
    let st0 := part.state
    let st1 :=
      if (part.tool ≠ "write" ∧ part.tool ≠ "edit") ∧ st0.status = .completed then
        { st0 with output := some PRUNED_TOOL_OUTPUT_REPLACEMENT }
      else st0
    let st2 :=
      if (part.tool = "write" ∨ part.tool = "edit") ∧ st1.status = .completed then
        if part.tool = "write" then { st1 with input := writeRedact st1.input }
        else { st1 with input := editRedact st1.input }
      else st1
    let st3 :=
      if st2.status = .error then { st2 with input := st2.input.map redactStrings }
      else st2
    { part with state := st3 }

/-- `pruneMessages`: messages for which `isMessageCompacted` holds are
skipped entirely; in every other message each part is rewritten by
`prunePart`.  The host compaction predicate `isMessageCompacted state ·`
is passed in as `isCompacted`. -/
def pruneMessages (toolIds : List String) (isCompacted : Msg → Bool)
    (messages : List Msg) : List Msg :=
  messages.map (fun m =>
    if isCompacted m then m
    else { m with parts := m.parts.map (prunePart toolIds) })

/-! ## Session State Store (`lib/state.ts`, `StateManager`) -/

/-- The per-session record held by the `StateManager` map. -/
structure PruningMetadata where
  prunedIds : List String
  lastPruneCount : Int
deriving DecidableEq

/-- `StateManager.state : Map<string, PruningMetadata>`. -/
def StoreMap := String → Option PruningMetadata

/-- A fresh `StateManager` (empty map). -/
def smEmpty : StoreMap := fun _ => none

/-- `StateManager.get`: the pruned ids of a session, `[]` when unknown. -/
def smGet (st : StoreMap) (sessionID : String) : List String :=
  match st sessionID with
  | some m => m.prunedIds
  | none => []

/-- `StateManager.set`: plain overwrite of the session record; the
`lastPruneCount` delta is the new length minus the previous length. -/
def smSet (st : StoreMap) (sessionID : String) (prunedIds : List String) : StoreMap :=
  let previousCount : Int :=
    match st sessionID with
    | some m => (m.prunedIds.length : Int)
    | none => 0
  fun k =>
    if k = sessionID then
      some { prunedIds, lastPruneCount := (prunedIds.length : Int) - previousCount }
    else st k

/-- `StateManager.getLastPruneCount`. -/
def smGetLastPruneCount (st : StoreMap) (sessionID : String) : Int :=
  match st sessionID with
  | some m => m.lastPruneCount
  | none => 0

/-- `StateManager.resetLastPruneCount`. -/
def smResetLastPruneCount (st : StoreMap) (sessionID : String) : StoreMap :=
  fun k =>
    if k = sessionID then
      match st sessionID with
      | some m => some { m with lastPruneCount := 0 }
      | none => none
    else st k

/-- `StateManager.clear`: explicit session teardown. -/
def smClear (st : StoreMap) (sessionID : String) : StoreMap :=
  fun k => if k = sessionID then none else st k

/-- One mutating State Store operation (the read operations `get` and
`getLastPruneCount` do not change the map). -/
inductive StoreOp where
  | setOp (sessionID : String) (prunedIds : List String)
  | resetOp (sessionID : String)
  | clearOp (sessionID : String)
deriving DecidableEq

/-- Apply one store operation. -/
def applyOp (st : StoreMap) : StoreOp → StoreMap
  | .setOp sid ids => smSet st sid ids
  | .resetOp sid => smResetLastPruneCount st sid
  | .clearOp sid => smClear st sid

/-- Apply a sequence of store operations in order. -/
def applyOps (st : StoreMap) (ops : List StoreOp) : StoreMap :=
  ops.foldl applyOp st

/-- The discipline every writer in the plugin follows (and which the
store itself does not enforce): no teardown, and every `set` passes a
list containing everything `get` currently returns for that session. -/
def Disciplined : StoreMap → List StoreOp → Prop
  | _, [] => True
  | st, op :: ops =>
    (match op with
     | .setOp sid ids => ∀ x ∈ smGet st sid, x ∈ ids
     | .resetOp _ => True
     | .clearOp _ => False) ∧ Disciplined (applyOp st op) ops

/-! ## Semantic Janitor (`lib/janitor.ts`, `Janitor.run`) -/

/-- JS `Map.get`: first (unique) binding of a key. -/
def mapGet {α : Type} (l : List (String × α)) (k : String) : Option α :=
  (l.find? (fun p => p.1 = k)).map (fun p => p.2)

/-- JS `Map.set`: replace the value in place when the key is present,
append the binding otherwise (insertion order preserved). -/
def mapSet {α : Type} (l : List (String × α)) (k : String) (v : α) : List (String × α) :=
  if l.any (fun p => p.1 = k) then l.map (fun p => if p.1 = k then (k, v) else p)
  else l ++ [(k, v)]

/-- JS truthiness of an optional string (`undefined` and `""` falsy). -/
def truthyOpt : Option String → Bool
  | some s => s ≠ ""
  | none => false

/-- `String.prototype.startsWith`, as list-prefix containment on the
character data. -/
def strStartsWith (s p : String) : Bool := decide (p.data <+: s.data)

/-- JS `Set.add` flattened to a list keeping first occurrences. -/
def insertUnique (l : List String) (x : String) : List String :=
  if l.contains x then l else l ++ [x]

/-- `[...new Set(l)]`: first-occurrence deduplication. -/
def dedupKeepFirst (l : List String) : List String :=
  l.foldl insertUnique []

/-- The validated result of the oracle call (`generateObject` with the
`{pruned_tool_call_ids, reasoning}` schema). -/
structure OracleResult where
  pruned_tool_call_ids : List String
  reasoning : String
deriving DecidableEq

/-- Accumulator of the tool-call scan in `Janitor.run`: collected call
ids, the output cache, the batch parent-to-children map, and the
current-batch cursor. -/
structure ScanAcc where
  toolCallIds : List String
  toolOutputs : List (String × String)
  batchChildren : List (String × List String)
  currentBatch : Option String
deriving DecidableEq

/-- Per-part step of the scan loop in `Janitor.run` (lines 49-93 of
`lib/janitor.ts`): record the call id and the completed output, open a
batch on a `batch` tool, append `prt_`-prefixed calls to the open batch,
and close the batch on any other call. -/
def scanPart (acc : ScanAcc) (part : Part) : ScanAcc :=
  if part.type = "tool" ∧ part.callID ≠ "" then
    let acc := { acc with toolCallIds := acc.toolCallIds ++ [part.callID] }
    let acc :=
      if part.state.status = .completed ∧ truthyOpt part.state.output then
        { acc with toolOutputs := mapSet acc.toolOutputs part.callID (part.state.output.getD "") }
      else acc
    if part.tool = "batch" then
      { acc with
        currentBatch := some part.callID
        batchChildren := mapSet acc.batchChildren part.callID [] }
    else
      match acc.currentBatch with
      | some b =>
        if strStartsWith part.callID "prt_" then
          { acc with
            batchChildren :=
              mapSet acc.batchChildren b ((mapGet acc.batchChildren b).getD [] ++ [part.callID]) }
        else { acc with currentBatch := none }
      | none => acc
  else acc

/-- The full scan over the fetched session history. -/
def scanMessages (messages : List Msg) : ScanAcc :=
  messages.foldl (fun acc m => m.parts.foldl scanPart acc) ⟨[], [], [], none⟩

/-- Batch expansion (lines 170-188 of `lib/janitor.ts`): every oracle id
is kept, and each oracle id that is a recorded batch parent additionally
contributes all of that batch's recorded children, deduplicated in
insertion order. -/
def expandPrunedIds (batchChildren : List (String × List String))
    (oracleIds : List String) : List String :=
  oracleIds.foldl (fun acc prunedId =>
    let acc := insertUnique acc prunedId
    match mapGet batchChildren prunedId with
    | some children => children.foldl insertUnique acc
    | none => acc) []

/-- What one `Janitor.run` invocation did: the store afterwards, and
whether the oracle was called, the store written, a toast shown. -/
structure JanitorOutcome where
  store : StoreMap
  oracleCalled : Bool
  stateWritten : Bool
  toastShown : Bool

/-- `Janitor.run`.  External effects are inputs: `fetch` is the result
of `client.session.messages` (`Except.error` when it throws), `oracle`
is `generateObject` on the not-yet-pruned id list (`Except.error` when
it throws or its result fails schema validation), `toastOk` tells
whether `tui.showToast` succeeds.  The surrounding `try/catch` swallows
every failure, so the embedding is a total function: the run always
returns normally. -/
def janitorRun (fetch : Except String (List Msg))
    (oracle : List String → Except String OracleResult)
    (toastOk : Bool) (sessionID : String) (st : StoreMap) : JanitorOutcome :=
  match fetch with
  | .error _ => ⟨st, false, false, false⟩
  | .ok messages =>
    if messages.length < 3 then ⟨st, false, false, false⟩
    else
      let scan := scanMessages messages
      let alreadyPrunedIds := smGet st sessionID
      let unprunedToolCallIds :=
        scan.toolCallIds.filter (fun id => ¬ alreadyPrunedIds.contains id)
      if unprunedToolCallIds.isEmpty then ⟨st, false, false, false⟩
      else
        match oracle unprunedToolCallIds with
        | .error _ => ⟨st, true, false, false⟩
        | .ok result =>
          let finalPrunedIds := expandPrunedIds scan.batchChildren result.pruned_tool_call_ids
          let allPrunedIds := dedupKeepFirst (alreadyPrunedIds ++ finalPrunedIds)
          let st2 := smSet st sessionID allPrunedIds
          ⟨st2, true, true, decide (finalPrunedIds.length > 0) && toastOk⟩

/-! ## Bedrock Format Descriptor (`lib/fetch-wrapper/formats/bedrock.ts`) -/

/-- `String.prototype.toLowerCase`, as per-character lowering of the
character data. -/
def lowerStr (s : String) : String := String.mk (s.data.map Char.toLower)

/-- `String.prototype.includes`, as list-infix containment on the
character data. -/
def strContains (s sub : String) : Bool := decide (sub.data <:+: s.data)

/-- A `toolUse` block payload (assistant-issued tool invocation). -/
structure ToolUseB where
  toolUseId : Option String
  name : String
  input : JVal
deriving DecidableEq

/-- An element of a `toolResult.content` array. -/
inductive RContent where
  | textC (s : String)
  | otherC (n : Nat)
deriving DecidableEq

/-- A `toolResult` block payload (tool result correlated by
`toolUseId`); `extra` stands for its remaining JSON fields (for example
`status`), which rewriting must preserve. -/
structure ToolResultB where
  toolUseId : Option String
  content : List RContent
  extra : String
deriving DecidableEq

/-- A content block of a wire message.  Bedrock uses the `toolUse` /
`toolResult` fields; the shared OpenAI-style helpers look at `btype`
(the JSON `type` field), `tool_use_id` and `text`; `extra` stands for
any remaining fields (for example `cachePoint`). -/
structure Block where
  toolResult : Option ToolResultB
  toolUse : Option ToolUseB
  btype : Option String
  tool_use_id : Option String
  text : Option String
  extra : String
deriving DecidableEq

/-- The `content` field of a wire message: a string, an array of
blocks, or anything else (`null`, an object, ...). -/
inductive WireContent where
  | strC (s : String)
  | arrC (blocks : List Block)
  | otherWC (n : Nat)
deriving DecidableEq

/-- A wire message; `extra` stands for its remaining fields. -/
structure WMsg where
  role : String
  content : WireContent
  tool_call_id : Option String
  extra : String
deriving DecidableEq

/-- A request body as far as `bedrockFormat.detect` inspects it:
whether `body.system` is an array, whether `body.inferenceConfig` is
defined, and `body.messages` (present exactly when it is an array). -/
structure Body where
  systemIsArray : Bool
  hasInferenceConfig : Bool
  messages : Option (List WMsg)

/-- `bedrockFormat.detect`. -/
def detect (body : Body) : Bool :=
  body.systemIsArray && body.hasInferenceConfig && body.messages.isSome

/-- `isNudgeMessage`: a previously injected synthetic nudge turn is
recognized by exact string-content match. -/
def isNudgeMessage (m : WMsg) (nudgeText : String) : Bool :=
  match m.content with
  | .strC s => s = nudgeText
  | _ => false

/-- The synthetic text block `{type: "text", text: instruction}` pushed
by `injectSynth` into array content. -/
def textBlock (instruction : String) : Block :=
  ⟨none, none, some "text", none, some instruction, ""⟩

/-- `injectSynth` on the reversed message list (the source iterates from
the last message towards the first): the head here is the most recent
message.  Handles the first user message that is not a nudge and
returns; all other messages stay untouched. -/
def injectSynthRev (instruction nudgeText : String) : List WMsg → List WMsg × Bool
  | [] => ([], false)
  | m :: rest =>
    if m.role = "user" ∧ ¬ isNudgeMessage m nudgeText then
      match m.content with
      | .strC c =>
        if strContains c instruction then (m :: rest, false)
        else ({ m with content := .strC (c ++ "\n\n" ++ instruction) } :: rest, true)
      | .arrC blocks =>
        if blocks.any (fun b =>
            decide (b.btype = some "text") &&
              match b.text with
              | some t => strContains t instruction
              | none => false) then
          (m :: rest, false)
        else ({ m with content := .arrC (blocks ++ [textBlock instruction]) } :: rest, true)
      | .otherWC _ => (m :: rest, true)
    else
      let r := injectSynthRev instruction nudgeText rest
      (m :: r.1, r.2)

/-- `injectSynth(messages, instruction, nudgeText)`: rewritten message
list plus the returned boolean. -/
def injectSynth (messages : List WMsg) (instruction nudgeText : String) :
    List WMsg × Bool :=
  let r := injectSynthRev instruction nudgeText messages.reverse
  (r.1.reverse, r.2)

/-- The tracker state threaded through `trackNewToolResults`;
`getToolName` is its optional callback. -/
structure ToolTracker where
  seenToolResultIds : List String
  toolResultCount : Nat
  getToolName : Option (String → Option String)

/-- Whether a (possibly absent) tool name passes the
`!toolName || !protectedTools.has(toolName)` test. -/
def countableName (toolName : Option String) (protectedTools : List String) : Bool :=
  ¬ truthyOpt toolName || ¬ (protectedTools.contains (toolName.getD ""))

/-- One id observed by `trackNewToolResults`: mark it seen and count it
unless its resolved tool name is protected. -/
def trackId (tracker : ToolTracker) (newCount : Nat) (id : String)
    (protectedTools : List String) : ToolTracker × Nat :=
  if tracker.seenToolResultIds.contains id then (tracker, newCount)
  else
    let tracker := { tracker with seenToolResultIds := tracker.seenToolResultIds ++ [id] }
    let toolName :=
      match tracker.getToolName with
      | some f => f id
      | none => none
    if countableName toolName protectedTools then
      ({ tracker with toolResultCount := tracker.toolResultCount + 1 }, newCount + 1)
    else (tracker, newCount)

/-- `trackNewToolResults`: scan the messages for tool-result entries
(OpenAI-style `role: "tool"` messages and `tool_result` blocks inside
user array content) and count the ids not seen before.  Note that the
ids are used exactly as they appear, without `toLowerCase`. -/
def trackNewToolResults (messages : List WMsg) (tracker : ToolTracker)
    (protectedTools : List String) : ToolTracker × Nat :=
  messages.foldl (fun acc m =>
    if m.role = "tool" ∧ truthyOpt m.tool_call_id then
      trackId acc.1 acc.2 (m.tool_call_id.getD "") protectedTools
    else if m.role = "user" then
      match m.content with
      | .arrC blocks =>
        blocks.foldl (fun acc b =>
          if b.btype = some "tool_result" ∧ truthyOpt b.tool_use_id then
            trackId acc.1 acc.2 (b.tool_use_id.getD "") protectedTools
          else acc) acc
      | _ => acc
    else acc) (tracker, 0)

/-- An entry of `state.toolParameters`. -/
structure ToolParamEntry where
  tool : String
  parameters : JVal
deriving DecidableEq

/-- The `state.toolParameters` map (keyed by lowercased id). -/
abbrev ToolParams := List (String × ToolParamEntry)

/-- The Bedrock-specific loop of `bedrockFormat.cacheToolParameters`:
record `{tool, parameters}` under the lowercased `toolUseId` of every
`toolUse` block found in assistant array content.  The trailing call to
the generic `cacheToolParametersFromMessages` helper (in
`lib/state/tool-cache`, outside these sources) is not embedded; it only
adds entries for message shapes a Bedrock body does not contain. -/
def cacheToolParametersBedrock (data : List WMsg) (tp : ToolParams) : ToolParams :=
  data.foldl (fun tp m =>
    if m.role = "assistant" then
      match m.content with
      | .arrC blocks =>
        blocks.foldl (fun tp b =>
          match b.toolUse with
          | some tu =>
            if truthyOpt tu.toolUseId then
              mapSet tp (lowerStr (tu.toolUseId.getD "")) ⟨tu.name, tu.input⟩
            else tp
          | none => tp) tp
      | _ => tp
    else tp) tp

/-- An element of `extractToolOutputs`: lowercased id plus the tool name
from the cached metadata when present. -/
structure ToolOutput where
  id : String
  toolName : Option String
deriving DecidableEq

/-- `bedrockFormat.extractToolOutputs`: every `toolResult` block inside
user array content yields an output entry keyed by lowercased id. -/
def extractToolOutputs (data : List WMsg) (tp : ToolParams) : List ToolOutput :=
  data.foldl (fun outs m =>
    if m.role = "user" then
      match m.content with
      | .arrC blocks =>
        blocks.foldl (fun outs b =>
          match b.toolResult with
          | some tr =>
            if truthyOpt tr.toolUseId then
              let toolUseId := lowerStr (tr.toolUseId.getD "")
              outs ++ [⟨toolUseId, (mapGet tp toolUseId).map (fun e => e.tool)⟩]
            else outs
          | none => outs) outs
      | _ => outs
    else outs) []

/-- The match test of `bedrockFormat.replaceToolOutput`:
`block.toolResult && block.toolResult.toolUseId?.toLowerCase() === toolIdLower`. -/
def blockMatches (toolIdLower : String) (b : Block) : Bool :=
  match b.toolResult with
  | some tr =>
    match tr.toolUseId with
    | some u => lowerStr u = toolIdLower
    | none => false
  | none => false

/-- The per-block rewrite of `replaceToolOutput`: a matching block keeps
every field except that its `toolResult.content` becomes the single text
chunk `[{text: prunedMessage}]`; the returned flag says whether it
matched. -/
def replaceInBlock (toolIdLower prunedMessage : String) (b : Block) : Block × Bool :=
  if blockMatches toolIdLower b then
    let newTR := b.toolResult.map (fun tr => { tr with content := [.textC prunedMessage] })
    ({ b with toolResult := newTR }, true)
  else (b, false)

/-- The per-message step of `replaceToolOutput`: only user messages with
array content are rewritten, and only when some block matched. -/
def replaceToolOutputMsg (toolIdLower prunedMessage : String) (m : WMsg) : WMsg × Bool :=
  if m.role = "user" then
    match m.content with
    | .arrC blocks =>
      let pairs := blocks.map (replaceInBlock toolIdLower prunedMessage)
      if pairs.any (fun p => p.2) then
        ({ m with content := .arrC (pairs.map (fun p => p.1)) }, true)
      else (m, false)
    | _ => (m, false)
  else (m, false)

/-- `bedrockFormat.replaceToolOutput`: rewrite every matching
`toolResult` block in user content and report whether any match was
found. -/
def replaceToolOutput (data : List WMsg) (toolId prunedMessage : String) :
    List WMsg × Bool :=
  let toolIdLower := lowerStr toolId
  let results := data.map (replaceToolOutputMsg toolIdLower prunedMessage)
  (results.map (fun p => p.1), results.any (fun p => p.2))

/-- The rewrite `replaceToolOutput` applies to a matched `toolResult`:
only its `content` becomes the single text chunk `[{text: prunedMessage}]`;
`toolUseId` and every other field are preserved. -/
def redactTR (prunedMessage : String) (tr : ToolResultB) : ToolResultB :=
  { tr with content := [.textC prunedMessage] }

/-- The per-block effect of `replaceToolOutput`: matched blocks get
`redactTR` applied inside `toolResult`, all other fields preserved;
non-matching blocks are untouched. -/
def redactBlock (toolIdLower prunedMessage : String) (b : Block) : Block :=
  if blockMatches toolIdLower b then
    { b with toolResult := b.toolResult.map (redactTR prunedMessage) }
  else b

/-- `bedrockFormat.hasToolOutputs`: is any `toolResult` block present in
user array content. -/
def hasToolOutputs (data : List WMsg) : Bool :=
  data.any (fun m =>
    decide (m.role = "user") &&
      match m.content with
      | .arrC blocks => blocks.any (fun b => b.toolResult.isSome)
      | _ => false)

/-- Message contents the double-run guarantee of `injectSynth` needs: a
string or an array (the fall-through `return true` on any other content
neither modifies nor dedups). -/
def contentOk (m : WMsg) : Bool :=
  match m.content with
  | .otherWC _ => false
  | _ => true

/-- Identifier fields equal up to `toLowerCase`. -/
def eqvIdOpt : Option String → Option String → Prop
  | some s, some t => lowerStr s = lowerStr t
  | none, none => True
  | _, _ => False

/-- Lift a relation to optional values. -/
def eqvOptRel {α : Type} (r : α → α → Prop) : Option α → Option α → Prop
  | some a, some b => r a b
  | none, none => True
  | _, _ => False

/-- `toolResult` payloads equal except for identifier case. -/
def eqvTR (a b : ToolResultB) : Prop :=
  eqvIdOpt a.toolUseId b.toolUseId ∧ a.content = b.content ∧ a.extra = b.extra

/-- `toolUse` payloads equal except for identifier case. -/
def eqvTU (a b : ToolUseB) : Prop :=
  eqvIdOpt a.toolUseId b.toolUseId ∧ a.name = b.name ∧ a.input = b.input

/-- Blocks equal except for the case of their Bedrock identifiers. -/
def eqvBlock (a b : Block) : Prop :=
  eqvOptRel eqvTR a.toolResult b.toolResult ∧ eqvOptRel eqvTU a.toolUse b.toolUse ∧
    a.btype = b.btype ∧ a.tool_use_id = b.tool_use_id ∧ a.text = b.text ∧ a.extra = b.extra

/-- Message contents equal except for Bedrock identifier case. -/
def eqvContent : WireContent → WireContent → Prop
  | .strC a, .strC b => a = b
  | .arrC as, .arrC bs => List.Forall₂ eqvBlock as bs
  | .otherWC a, .otherWC b => a = b
  | _, _ => False

/-- Messages equal except for Bedrock identifier case. -/
def eqvMsg (a b : WMsg) : Prop :=
  a.role = b.role ∧ eqvContent a.content b.content ∧
    a.tool_call_id = b.tool_call_id ∧ a.extra = b.extra

/-- Bodies equal except for Bedrock identifier case. -/
def eqvData (a b : List WMsg) : Prop := List.Forall₂ eqvMsg a b

/-! ## Helper lemmas -/

theorem mem_insertUnique {l : List String} {x y : String} :
    x ∈ insertUnique l y ↔ x ∈ l ∨ x = y := by
  unfold insertUnique
  split
  · next h =>
    rw [List.elem_iff] at h
    constructor
    · exact Or.inl
    · rintro (hx | rfl)
      · exact hx
      · exact h
  · simp [List.mem_append]

theorem mem_foldl_insertUnique {l : List String} :
    ∀ {acc x}, x ∈ l.foldl insertUnique acc ↔ x ∈ acc ∨ x ∈ l := by
  induction l with
  | nil => simp
  | cons y l ih =>
    intro acc x
    simp only [List.foldl_cons, ih, mem_insertUnique, List.mem_cons]
    tauto

theorem mem_dedupKeepFirst {l : List String} {x : String} :
    x ∈ dedupKeepFirst l ↔ x ∈ l := by
  simp [dedupKeepFirst, mem_foldl_insertUnique]

theorem smGet_smSet (st : StoreMap) (sid sid2 : String) (ids : List String) :
    smGet (smSet st sid ids) sid2 = if sid2 = sid then ids else smGet st sid2 := by
  unfold smGet smSet
  by_cases h : sid2 = sid <;> simp [h]

theorem smGet_smReset (st : StoreMap) (sid sid2 : String) :
    smGet (smResetLastPruneCount st sid) sid2 = smGet st sid2 := by
  unfold smGet smResetLastPruneCount
  by_cases h : sid2 = sid
  · subst h
    cases st sid2 <;> simp
  · simp [h]

/-! ## C1 — State Store monotonicity -/

/-- C1, counterexample: the State Store itself does not make `get`
non-decreasing.  `StateManager.set` is a plain overwrite, so the
clear-free operation sequence `set "s" ["a"]; set "s" []` makes `"a"`
appear in the result of `get` and then disappear from the result of a
later `get`. -/
theorem c1_counterexample :
    (∀ op ∈ [StoreOp.setOp "s" ["a"], StoreOp.setOp "s" []],
        ∀ sid, op ≠ StoreOp.clearOp sid) ∧
      "a" ∈ smGet (applyOps smEmpty [StoreOp.setOp "s" ["a"]]) "s" ∧
      "a" ∉ smGet (applyOps smEmpty [StoreOp.setOp "s" ["a"], StoreOp.setOp "s" []]) "s" := by
  refine ⟨?_, by decide, by decide⟩
  intro op hop sid
  fin_cases hop <;> simp

/-- C1, amended: monotonicity of the pruned-identifier set returned by
`get` holds for every teardown-free operation sequence in which each
`set` passes a list containing everything `get` currently returns for
that session (the discipline all writers in the plugin follow, since the
store's `set` is a plain overwrite); and re-adding already-present
identifiers (a `set` whose list has the same members as the current
`get` result) is a membership no-op, not an error. -/
theorem c1_store_monotonic (st : StoreMap) (ops : List StoreOp) (sid : String)
    (hd : Disciplined st ops) :
    (∀ x ∈ smGet st sid, x ∈ smGet (applyOps st ops) sid) ∧
      (∀ ids, (∀ x, x ∈ ids ↔ x ∈ smGet st sid) →
        ∀ x, x ∈ smGet (smSet st sid ids) sid ↔ x ∈ smGet st sid) := by
  constructor
  · induction ops generalizing st with
    | nil => intro x hx; exact hx
    | cons op ops ih =>
      intro x hx
      obtain ⟨hop, hrest⟩ := hd
      have hstep : x ∈ smGet (applyOp st op) sid := by
        cases op with
        | setOp sid2 ids =>
          simp only [applyOp, smGet_smSet]
          by_cases h : sid = sid2
          · subst h
            simp only [if_pos rfl]
            exact hop x hx
          · rw [if_neg h]
            exact hx
        | resetOp sid2 =>
          simp only [applyOp, smGet_smReset]
          exact hx
        | clearOp sid2 => exact absurd hop id
      exact ih (applyOp st op) hrest x hstep
  · intro ids hids x
    rw [smGet_smSet, if_pos rfl]
    exact hids x

/-- C1, witness for the amended theorem at a concrete disciplined
sequence. -/
theorem c1_witness :
    Disciplined (smSet smEmpty "s" ["a"]) [StoreOp.setOp "s" ["a", "b"]] ∧
      "a" ∈ smGet (applyOps (smSet smEmpty "s" ["a"]) [StoreOp.setOp "s" ["a", "b"]]) "s" := by
  have hd : Disciplined (smSet smEmpty "s" ["a"]) [StoreOp.setOp "s" ["a", "b"]] := by
    refine ⟨?_, trivial⟩
    decide
  exact ⟨hd, (c1_store_monotonic _ _ "s" hd).1 "a" (by decide)⟩

/-! ## C2 — error-input redaction in the Structural Mutator -/

theorem lookupKey_redactStrings (l : InputObj) (k : String) :
    lookupKey (redactStrings l) k =
      (lookupKey l k).map (fun v =>
        match v with
        | .str _ => .str PRUNED_TOOL_ERROR_INPUT_REPLACEMENT
        | v => v) := by
  induction l with
  | nil => rfl
  | cons a l ih =>
    obtain ⟨ka, va⟩ := a
    by_cases hk : ka = k
    · subst hk
      cases va <;> simp [lookupKey, redactStrings, List.find?]
    · cases va <;>
        simp_all [lookupKey, redactStrings, List.find?, hk]

/-- C2, counterexample: the error-input redaction is **not** independent
of the pruned set.  A tool part with status `error` whose `callID` is
not in `state.prune.toolIds` is skipped by the early `continue`, so its
string-valued input field keeps its original value instead of the
failed-call placeholder. -/
theorem c2_counterexample :
    pruneMessages [] (fun _ => false)
        [⟨[⟨"tool", "x", "bash", ⟨.error, some "boom", some [("cmd", .str "rm x")]⟩⟩]⟩] =
      [⟨[⟨"tool", "x", "bash", ⟨.error, some "boom", some [("cmd", .str "rm x")]⟩⟩]⟩] ∧
      "rm x" ≠ PRUNED_TOOL_ERROR_INPUT_REPLACEMENT := by
  exact ⟨by decide, by decide⟩

/-- C2, amended: for every non-compacted message and every tool-type
part whose state status is `error` **and whose call identifier is in the
pruned-identifier set**, the Structural Mutator overwrites every
string-valued field inside the part's input object with the
failed-call placeholder, leaving non-string fields and all other part
fields unchanged; the mutator maps `prunePart` over the parts of every
non-compacted message and skips compacted messages. -/
theorem c2_error_redaction (toolIds : List String) (isCompacted : Msg → Bool)
    (messages : List Msg) (p : Part)
    (htype : p.type = "tool") (hmem : toolIds.contains p.callID = true)
    (herr : p.state.status = .error) :
    pruneMessages toolIds isCompacted messages =
        messages.map (fun m =>
          if isCompacted m then m
          else { m with parts := m.parts.map (prunePart toolIds) }) ∧
      prunePart toolIds p =
        { p with state := { p.state with input := p.state.input.map redactStrings } } ∧
      (∀ l k s, lookupKey l k = some (.str s) →
        lookupKey (redactStrings l) k = some (.str PRUNED_TOOL_ERROR_INPUT_REPLACEMENT)) ∧
      (∀ l k n, lookupKey l k = some (.other n) →
        lookupKey (redactStrings l) k = some (.other n)) := by
  refine ⟨rfl, ?_, ?_, ?_⟩
  · have hmem2 : p.callID ∈ toolIds := List.elem_iff.mp hmem
    simp [prunePart, htype, herr, hmem2]
  · intro l k s h
    rw [lookupKey_redactStrings, h]
    rfl
  · intro l k n h
    rw [lookupKey_redactStrings, h]
    rfl

/-- C2, witness for the amended theorem at a concrete errored part in
the pruned set. -/
theorem c2_witness :
    prunePart ["x"] ⟨"tool", "x", "bash", ⟨.error, some "boom", some [("cmd", .str "rm x")]⟩⟩ =
      ⟨"tool", "x", "bash",
        ⟨.error, some "boom",
          some [("cmd", .str PRUNED_TOOL_ERROR_INPUT_REPLACEMENT)]⟩⟩ := by
  rw [(c2_error_redaction ["x"] (fun _ => false) []
      ⟨"tool", "x", "bash", ⟨.error, some "boom", some [("cmd", .str "rm x")]⟩⟩
      rfl (by decide) rfl).2.1]
  decide

/-! ## C6 — completed-part redaction in the Structural Mutator -/

theorem lookupKey_cons (ka : String) (va : JVal) (l : InputObj) (k : String) :
    lookupKey ((ka, va) :: l) k = if ka = k then some va else lookupKey l k := by
  by_cases h : ka = k <;> simp [lookupKey, List.find?_cons, h]

theorem setKey_cons (ka : String) (va : JVal) (l : InputObj) (k0 : String) (v : JVal) :
    setKey ((ka, va) :: l) k0 v =
      (if ka = k0 then (k0, v) else (ka, va)) :: setKey l k0 v := rfl

theorem lookupKey_setKey_ne (l : InputObj) (k0 k : String) (v : JVal) (h : k ≠ k0) :
    lookupKey (setKey l k0 v) k = lookupKey l k := by
  induction l with
  | nil => rfl
  | cons a l ih =>
    obtain ⟨ka, va⟩ := a
    rw [setKey_cons]
    by_cases hk : ka = k0
    · rw [if_pos hk, lookupKey_cons, lookupKey_cons, if_neg (fun hh => h hh.symm),
        if_neg (fun hh => h (hh.symm.trans hk))]
      exact ih
    · rw [if_neg hk, lookupKey_cons, lookupKey_cons]
      by_cases hk2 : ka = k
      · rw [if_pos hk2, if_pos hk2]
      · rw [if_neg hk2, if_neg hk2]
        exact ih

/-- C6: for every tool-type part whose call identifier is in the pruned
set and whose status is `completed`: a part of a tool other than `write`
and `edit` gets only its output overwritten with the short placeholder
(input untouched); a `write` part gets only `input.content` overwritten;
an `edit` part gets only `input.oldString` and `input.newString`
overwritten; every other field is preserved, and non-targeted input keys
keep their values.  The mutator applies `prunePart` to every part of
every non-compacted message. -/
theorem c6_completed_redaction (toolIds : List String) (isCompacted : Msg → Bool)
    (messages : List Msg) (p : Part)
    (htype : p.type = "tool") (hmem : toolIds.contains p.callID = true)
    (hdone : p.state.status = .completed) :
    pruneMessages toolIds isCompacted messages =
        messages.map (fun m =>
          if isCompacted m then m
          else { m with parts := m.parts.map (prunePart toolIds) }) ∧
      ((p.tool ≠ "write" ∧ p.tool ≠ "edit") →
        prunePart toolIds p =
          { p with state :=
              { p.state with output := some PRUNED_TOOL_OUTPUT_REPLACEMENT } }) ∧
      (p.tool = "write" →
        prunePart toolIds p =
          { p with state := { p.state with input := writeRedact p.state.input } }) ∧
      (p.tool = "edit" →
        prunePart toolIds p =
          { p with state := { p.state with input := editRedact p.state.input } }) ∧
      (∀ l k, k ≠ "content" →
        lookupKey ((writeRedact (some l)).getD []) k = lookupKey l k) ∧
      (∀ l k, k ≠ "oldString" → k ≠ "newString" →
        lookupKey ((editRedact (some l)).getD []) k = lookupKey l k) := by
  have hmem2 : p.callID ∈ toolIds := List.elem_iff.mp hmem
  refine ⟨rfl, ?_, ?_, ?_, ?_, ?_⟩
  · intro ⟨hw, he⟩
    simp [prunePart, htype, hdone, hmem2, hw, he]
  · intro hw
    simp [prunePart, htype, hdone, hmem2, hw]
  · intro he
    simp [prunePart, htype, hdone, hmem2, he]
  · intro l k hk
    simp only [writeRedact]
    split
    · simp only [Option.getD_some]
      exact lookupKey_setKey_ne _ _ _ _ hk
    · rfl
  · intro l k hk1 hk2
    simp only [editRedact, Option.getD_some]
    have hstep1 :
        lookupKey (if (lookupKey l "oldString").isSome = true then
          setKey l "oldString" (JVal.str PRUNED_TOOL_INPUT_REPLACEMENT) else l) k =
          lookupKey l k := by
      split
      · exact lookupKey_setKey_ne _ _ _ _ hk1
      · rfl
    have hgen : ∀ l2 : InputObj, lookupKey l2 k = lookupKey l k →
        lookupKey (if (lookupKey l2 "newString").isSome = true then
          setKey l2 "newString" (JVal.str PRUNED_TOOL_INPUT_REPLACEMENT) else l2) k =
          lookupKey l k := by
      intro l2 h2
      split
      · rw [lookupKey_setKey_ne _ _ _ _ hk2]
        exact h2
      · exact h2
    exact hgen _ hstep1

/-- C6, witness at a concrete completed `bash` part and a concrete
completed `edit` part. -/
theorem c6_witness :
    prunePart ["c1"] ⟨"tool", "c1", "bash", ⟨.completed, some "out", some [("cmd", .str "ls")]⟩⟩ =
        ⟨"tool", "c1", "bash",
          ⟨.completed, some PRUNED_TOOL_OUTPUT_REPLACEMENT, some [("cmd", .str "ls")]⟩⟩ ∧
      prunePart ["c2"]
          ⟨"tool", "c2", "edit",
            ⟨.completed, some "ok",
              some [("filePath", .str "f"), ("oldString", .str "aa"), ("newString", .str "bb")]⟩⟩ =
        ⟨"tool", "c2", "edit",
          ⟨.completed, some "ok",
            some [("filePath", .str "f"),
              ("oldString", .str PRUNED_TOOL_INPUT_REPLACEMENT),
              ("newString", .str PRUNED_TOOL_INPUT_REPLACEMENT)]⟩⟩ := by
  constructor
  · rw [(c6_completed_redaction ["c1"] (fun _ => false) []
        ⟨"tool", "c1", "bash", ⟨.completed, some "out", some [("cmd", .str "ls")]⟩⟩
        rfl (by decide) rfl).2.1 (by decide)]
  · rw [(c6_completed_redaction ["c2"] (fun _ => false) []
        ⟨"tool", "c2", "edit",
          ⟨.completed, some "ok",
            some [("filePath", .str "f"), ("oldString", .str "aa"), ("newString", .str "bb")]⟩⟩
        rfl (by decide) rfl).2.2.2.1 rfl]
    decide

/-! ## C3 — Janitor oracle failure is non-fatal and leaves state intact -/

/-- C3: when the oracle call (`generateObject`) throws or its result
fails the `{prunedIds, reasoning}` schema (both are `Except.error`
inputs here), `Janitor.run` returns normally — the embedding is a total
function, mirroring the surrounding `try/catch` — with the State Store
exactly as it was before the run, and no commit recorded. -/
theorem c3_oracle_failure (fetch : Except String (List Msg))
    (oracle : List String → Except String OracleResult)
    (toastOk : Bool) (sessionID : String) (st : StoreMap)
    (h : ∀ ids, ∃ e, oracle ids = Except.error e) :
    (janitorRun fetch oracle toastOk sessionID st).store = st ∧
      (janitorRun fetch oracle toastOk sessionID st).stateWritten = false := by
  unfold janitorRun
  cases fetch with
  | error e => exact ⟨rfl, rfl⟩
  | ok messages =>
    by_cases h3 : messages.length < 3
    · simp [h3]
    · simp only [h3, if_false]
      set unpruned :=
        (scanMessages messages).toolCallIds.filter
          (fun id => ¬ (smGet st sessionID).contains id) with hu
      by_cases he : unpruned.isEmpty
      · simp [he]
      · obtain ⟨e, hor⟩ := h unpruned
        simp [he, hor]

/-- C3, witness: a concrete three-message history with one tool call and
an oracle that throws. -/
theorem c3_witness :
    (janitorRun
        (Except.ok [⟨[⟨"tool", "t1", "read", ⟨.completed, some "o", none⟩⟩]⟩, ⟨[]⟩, ⟨[]⟩])
        (fun _ => Except.error "network") true "s" smEmpty).store = smEmpty ∧
      (janitorRun
        (Except.ok [⟨[⟨"tool", "t1", "read", ⟨.completed, some "o", none⟩⟩]⟩, ⟨[]⟩, ⟨[]⟩])
        (fun _ => Except.error "network") true "s" smEmpty).stateWritten = false :=
  c3_oracle_failure _ _ true "s" smEmpty (fun _ => ⟨"network", rfl⟩)

/-! ## C9 — Janitor early exits are effect-free -/

/-- C9: when the fetched history has fewer than 3 messages, or every
tool-call identifier found in it is already in the session's pruned set,
`Janitor.run` exits without effect: no oracle call, no store write, no
notification, store unchanged. -/
theorem c9_early_exit (messages : List Msg)
    (oracle : List String → Except String OracleResult)
    (toastOk : Bool) (sessionID : String) (st : StoreMap)
    (h : messages.length < 3 ∨
      (scanMessages messages).toolCallIds.filter
        (fun id => ¬ (smGet st sessionID).contains id) = []) :
    janitorRun (Except.ok messages) oracle toastOk sessionID st =
      ⟨st, false, false, false⟩ := by
  unfold janitorRun
  dsimp only
  rcases h with h3 | hempty
  · simp [h3]
  · by_cases h3 : messages.length < 3
    · simp [h3]
    · have hie : ((scanMessages messages).toolCallIds.filter
          (fun id => ¬ (smGet st sessionID).contains id)).isEmpty = true := by
        rw [hempty]
        rfl
      rw [if_neg h3, if_pos hie]

/-- C9, witness: an empty history and an oracle that is never
consulted. -/
theorem c9_witness :
    (([] : List Msg).length < 3 ∨
        (scanMessages []).toolCallIds.filter
          (fun id => ¬ (smGet smEmpty "s").contains id) = []) ∧
      janitorRun (Except.ok []) (fun _ => Except.ok ⟨["t1"], "r"⟩) true "s" smEmpty =
        ⟨smEmpty, false, false, false⟩ :=
  ⟨Or.inl (by decide),
    c9_early_exit [] (fun _ => Except.ok ⟨["t1"], "r"⟩) true "s" smEmpty (Or.inl (by decide))⟩

/-! ## C5 — batch expansion of oracle results -/

theorem mem_expand_step (batchChildren : List (String × List String))
    (acc : List String) (prunedId x : String) :
    (x ∈
        (match mapGet batchChildren prunedId with
          | some children => children.foldl insertUnique (insertUnique acc prunedId)
          | none => insertUnique acc prunedId)) ↔
      (x ∈ acc ∨ x = prunedId ∨
        ∃ cs, mapGet batchChildren prunedId = some cs ∧ x ∈ cs) := by
  cases h : mapGet batchChildren prunedId with
  | none => simp [mem_insertUnique, h]
  | some children =>
    simp only [mem_foldl_insertUnique, mem_insertUnique, h]
    constructor
    · rintro ((hx | rfl) | hc)
      · exact Or.inl hx
      · exact Or.inr (Or.inl rfl)
      · exact Or.inr (Or.inr ⟨children, rfl, hc⟩)
    · rintro (hx | rfl | ⟨cs, hcs, hc⟩)
      · exact Or.inl (Or.inl hx)
      · exact Or.inl (Or.inr rfl)
      · cases hcs
        exact Or.inr hc

theorem mem_expand_foldl (batchChildren : List (String × List String))
    (ids : List String) :
    ∀ (acc : List String) (x : String),
      (x ∈ ids.foldl (fun acc prunedId =>
        match mapGet batchChildren prunedId with
        | some children => children.foldl insertUnique (insertUnique acc prunedId)
        | none => insertUnique acc prunedId) acc) ↔
      (x ∈ acc ∨ x ∈ ids ∨
        ∃ p ∈ ids, ∃ cs, mapGet batchChildren p = some cs ∧ x ∈ cs) := by
  induction ids with
  | nil => simp
  | cons p ids ih =>
    intro acc x
    rw [List.foldl_cons, ih, mem_expand_step]
    simp only [List.mem_cons]
    constructor
    · rintro ((hx | rfl | ⟨cs, hcs, hc⟩) | hids | ⟨q, hq, cs, hcs, hc⟩)
      · exact Or.inl hx
      · exact Or.inr (Or.inl (Or.inl rfl))
      · exact Or.inr (Or.inr ⟨p, Or.inl rfl, cs, hcs, hc⟩)
      · exact Or.inr (Or.inl (Or.inr hids))
      · exact Or.inr (Or.inr ⟨q, Or.inr hq, cs, hcs, hc⟩)
    · rintro (hx | (rfl | hids) | ⟨q, (rfl | hq), cs, hcs, hc⟩)
      · exact Or.inl (Or.inl hx)
      · exact Or.inl (Or.inr (Or.inl rfl))
      · exact Or.inr (Or.inl hids)
      · exact Or.inl (Or.inr (Or.inr ⟨cs, hcs, hc⟩))
      · exact Or.inr (Or.inr ⟨q, hq, cs, hcs, hc⟩)

/-- C5: the expanded identifier set the Janitor commits is exactly the
oracle's identifiers united with, for each oracle identifier that is a
recorded batch parent, that batch's recorded children; in particular an
oracle result naming a single batch-parent identifier expands to that
parent plus exactly its recorded children — so no child of any other
batch enters unless it is also a child of this one. -/
theorem c5_batch_expansion (batchChildren : List (String × List String))
    (oracleIds : List String) (x : String) :
    (x ∈ expandPrunedIds batchChildren oracleIds ↔
        x ∈ oracleIds ∨
          ∃ p ∈ oracleIds, ∃ cs, mapGet batchChildren p = some cs ∧ x ∈ cs) ∧
      (∀ p cs, mapGet batchChildren p = some cs →
        (x ∈ expandPrunedIds batchChildren [p] ↔ (x = p ∨ x ∈ cs))) := by
  constructor
  · rw [expandPrunedIds, mem_expand_foldl]
    simp
  · intro p cs hcs
    rw [expandPrunedIds, mem_expand_foldl]
    simp [hcs]

/-- C5, witness: an oracle result naming only batch parent `"b1"`
expands to `"b1"` and its recorded children, excluding the child of the
other batch. -/
theorem c5_witness :
    mapGet [("b1", ["prt_1", "prt_2"]), ("b2", ["prt_3"])] "b1" = some ["prt_1", "prt_2"] ∧
      "prt_1" ∈ expandPrunedIds [("b1", ["prt_1", "prt_2"]), ("b2", ["prt_3"])] ["b1"] ∧
      ¬ "prt_3" ∈ expandPrunedIds [("b1", ["prt_1", "prt_2"]), ("b2", ["prt_3"])] ["b1"] := by
  refine ⟨rfl, ?_, ?_⟩
  · exact ((c5_batch_expansion [("b1", ["prt_1", "prt_2"]), ("b2", ["prt_3"])]
        ["b1"] "prt_1").2 "b1" ["prt_1", "prt_2"] (by decide)).mpr (Or.inr (by decide))
  · intro hmem
    have := ((c5_batch_expansion [("b1", ["prt_1", "prt_2"]), ("b2", ["prt_3"])]
        ["b1"] "prt_3").2 "b1" ["prt_1", "prt_2"] (by decide)).mp hmem
    revert this
    decide

/-! ## C10 — a Janitor commit never drops an existing pruned identifier -/

/-- C10: on every path, the pruned set `get` returns after
`Janitor.run` contains everything it contained before (the commit merges
with the already-stored ids before the plain-overwrite `set`); and on
the commit path the stored list is, as a set, exactly the union of the
previously stored identifiers with the expanded oracle identifiers. -/
theorem c10_commit_superset (fetch : Except String (List Msg))
    (oracle : List String → Except String OracleResult)
    (toastOk : Bool) (sessionID : String) (st : StoreMap) :
    (∀ x ∈ smGet st sessionID,
        x ∈ smGet (janitorRun fetch oracle toastOk sessionID st).store sessionID) ∧
      (∀ messages result, fetch = Except.ok messages →
        ¬ messages.length < 3 →
        ((scanMessages messages).toolCallIds.filter
            (fun id => ¬ (smGet st sessionID).contains id)).isEmpty = false →
        oracle ((scanMessages messages).toolCallIds.filter
            (fun id => ¬ (smGet st sessionID).contains id)) = Except.ok result →
        ∀ x, x ∈ smGet (janitorRun fetch oracle toastOk sessionID st).store sessionID ↔
          (x ∈ smGet st sessionID ∨
            x ∈ expandPrunedIds (scanMessages messages).batchChildren
              result.pruned_tool_call_ids)) := by
  constructor
  · intro x hx
    unfold janitorRun
    cases fetch with
    | error e => exact hx
    | ok messages =>
      dsimp only
      by_cases h3 : messages.length < 3
      · simp only [if_pos h3]
        exact hx
      · rw [if_neg h3]
        by_cases hie : ((scanMessages messages).toolCallIds.filter
            (fun id => ¬ (smGet st sessionID).contains id)).isEmpty = true
        · rw [if_pos hie]
          exact hx
        · rw [if_neg hie]
          cases horacle : oracle ((scanMessages messages).toolCallIds.filter
              (fun id => ¬ (smGet st sessionID).contains id)) with
          | error e => exact hx
          | ok result =>
            dsimp only
            rw [smGet_smSet, if_pos rfl, mem_dedupKeepFirst]
            exact List.mem_append.mpr (Or.inl hx)
  · intro messages result hfetch h3 hie horacle x
    subst hfetch
    unfold janitorRun
    dsimp only
    rw [if_neg h3, if_neg (by rw [hie]; exact Bool.false_ne_true), horacle]
    dsimp only
    rw [smGet_smSet, if_pos rfl, mem_dedupKeepFirst, List.mem_append]

/-- C10, witness: a concrete commit over an existing pruned set keeps
the old identifier. -/
theorem c10_witness :
    "old" ∈ smGet (smSet smEmpty "s" ["old"]) "s" ∧
      "old" ∈ smGet (janitorRun
          (Except.ok [⟨[⟨"tool", "t1", "read", ⟨.completed, some "o", none⟩⟩]⟩, ⟨[]⟩, ⟨[]⟩])
          (fun _ => Except.ok ⟨["t1"], "r"⟩) true "s"
          (smSet smEmpty "s" ["old"])).store "s" :=
  ⟨by decide,
    (c10_commit_superset _ (fun _ => Except.ok ⟨["t1"], "r"⟩) true "s"
        (smSet smEmpty "s" ["old"])).1 "old" (by decide)⟩

/-! ## C4 — `replaceToolOutput` of the Bedrock descriptor -/

theorem replaceInBlock_snd (idl p : String) (b : Block) :
    (replaceInBlock idl p b).2 = blockMatches idl b := by
  unfold replaceInBlock
  split <;> simp_all

theorem replaceInBlock_fst (idl p : String) (b : Block) :
    (replaceInBlock idl p b).1 = redactBlock idl p b := by
  unfold replaceInBlock redactBlock redactTR
  split <;> simp_all

theorem replaceToolOutputMsg_fst (idl p : String) (m : WMsg) :
    (replaceToolOutputMsg idl p m).1 =
      if m.role = "user" then
        match m.content with
        | .arrC blocks => { m with content := .arrC (blocks.map (redactBlock idl p)) }
        | _ => m
      else m := by
  unfold replaceToolOutputMsg
  by_cases hr : m.role = "user"
  · rw [if_pos hr, if_pos hr]
    cases hc : m.content with
    | strC s => rfl
    | otherWC n => rfl
    | arrC blocks =>
      dsimp only
      by_cases hm : (blocks.map (replaceInBlock idl p)).any (fun q => q.2) = true
      · rw [if_pos hm, List.map_map]
        have hcomp : ((fun q => q.1) ∘ replaceInBlock idl p : Block → Block) =
            fun b => (replaceInBlock idl p b).1 := rfl
        rw [hcomp]
        have hmap : blocks.map (fun b => (replaceInBlock idl p b).1) =
            blocks.map (redactBlock idl p) :=
          List.map_congr_left (fun b _ => replaceInBlock_fst idl p b)
        rw [hmap]
      · rw [if_neg hm]
        have hall : ∀ b ∈ blocks, redactBlock idl p b = b := by
          intro b hb
          have h2 : (replaceInBlock idl p b).2 = false := by
            rcases Bool.eq_false_or_eq_true (replaceInBlock idl p b).2 with h | h
            · exact absurd (List.any_eq_true.mpr
                ⟨replaceInBlock idl p b, List.mem_map_of_mem _ hb, h⟩) hm
            · exact h
          rw [replaceInBlock_snd] at h2
          unfold redactBlock
          rw [h2]
          rfl
        have hmap : blocks.map (redactBlock idl p) = blocks := by
          rw [List.map_congr_left (g := id) hall, List.map_id]
        rw [hmap, ← hc]
  · rw [if_neg hr, if_neg hr]

theorem replaceToolOutputMsg_snd (idl p : String) (m : WMsg) :
    ((replaceToolOutputMsg idl p m).2 = true ↔
      (m.role = "user" ∧ ∃ blocks, m.content = .arrC blocks ∧
        ∃ b ∈ blocks, blockMatches idl b = true)) := by
  unfold replaceToolOutputMsg
  by_cases hr : m.role = "user"
  · rw [if_pos hr]
    cases hc : m.content with
    | strC s => simp [hr]
    | otherWC n => simp [hr]
    | arrC blocks =>
      dsimp only
      by_cases hm : (blocks.map (replaceInBlock idl p)).any (fun q => q.2) = true
      · rw [if_pos hm]
        simp only [List.any_eq_true] at hm
        obtain ⟨x, hx, h2⟩ := hm
        obtain ⟨b, hb, rfl⟩ := List.mem_map.mp hx
        rw [replaceInBlock_snd] at h2
        exact ⟨fun _ => ⟨hr, blocks, rfl, b, hb, h2⟩, fun _ => rfl⟩
      · rw [if_neg hm]
        constructor
        · intro hfalse
          exact (Bool.false_ne_true hfalse).elim
        · rintro ⟨_, bl, hbl, b, hb, hmatch⟩
          cases hbl
          refine absurd (List.any_eq_true.mpr ?_) hm
          refine ⟨replaceInBlock idl p b, List.mem_map_of_mem _ hb, ?_⟩
          rw [replaceInBlock_snd]
          exact hmatch
  · rw [if_neg hr]
    simp [hr]

theorem replaceToolOutput_fst (data : List WMsg) (toolId prunedMessage : String) :
    (replaceToolOutput data toolId prunedMessage).1 =
      data.map (fun m =>
        if m.role = "user" then
          match m.content with
          | .arrC blocks =>
            { m with content :=
                .arrC (blocks.map (redactBlock (lowerStr toolId) prunedMessage)) }
          | _ => m
        else m) := by
  unfold replaceToolOutput
  dsimp only
  rw [List.map_map]
  exact List.map_congr_left (fun m _ => replaceToolOutputMsg_fst _ _ m)

/-- C4: for every body accepted by `detect` and every identifier,
`replaceToolOutput` (i) rewrites exactly the `toolResult` blocks in user
array content whose `toolUseId` matches the identifier
case-insensitively (`redactBlock`), replacing only their `content` with
the placeholder text (`redactTR`) and preserving every other field of
the block, of its `toolResult` and of every message; (ii) returns `true`
iff at least one such matching result block exists; (iii) keeps the
number of top-level messages; and (iv) the rewritten body still
satisfies `detect`. -/
theorem c4_replaceToolOutput (data : List WMsg) (toolId prunedMessage : String) :
    ((replaceToolOutput data toolId prunedMessage).1 =
        data.map (fun m =>
          if m.role = "user" then
            match m.content with
            | .arrC blocks =>
              { m with content :=
                  .arrC (blocks.map (redactBlock (lowerStr toolId) prunedMessage)) }
            | _ => m
          else m)) ∧
      ((replaceToolOutput data toolId prunedMessage).2 = true ↔
        ∃ m ∈ data, m.role = "user" ∧ ∃ blocks, m.content = .arrC blocks ∧
          ∃ b ∈ blocks, blockMatches (lowerStr toolId) b = true) ∧
      (replaceToolOutput data toolId prunedMessage).1.length = data.length ∧
      (∀ body : Body, detect body = true →
        detect { body with
          messages := some (replaceToolOutput data toolId prunedMessage).1 } = true) := by
  refine ⟨replaceToolOutput_fst data toolId prunedMessage, ?_, ?_, ?_⟩
  · show (replaceToolOutput data toolId prunedMessage).2 = true ↔ _
    unfold replaceToolOutput
    dsimp only
    simp only [List.any_eq_true]
    constructor
    · rintro ⟨x, hx, h2⟩
      obtain ⟨m, hm, rfl⟩ := List.mem_map.mp hx
      exact ⟨m, hm, (replaceToolOutputMsg_snd _ _ m).mp h2⟩
    · rintro ⟨m, hm, h2⟩
      exact ⟨replaceToolOutputMsg (lowerStr toolId) prunedMessage m,
        List.mem_map_of_mem _ hm, (replaceToolOutputMsg_snd _ _ m).mpr h2⟩
  · rw [replaceToolOutput_fst, List.length_map]
  · intro body hb
    simp only [detect, Bool.and_eq_true] at hb ⊢
    exact ⟨⟨hb.1.1, hb.1.2⟩, rfl⟩

/-- C4, witness at a concrete Bedrock body: a result block matching in
differing identifier case is rewritten, the non-matching one kept, the
flag is `true`, and `detect` survives on the rewritten body. -/
theorem c4_witness :
    (replaceToolOutput
        [⟨"user", .arrC
          [⟨some ⟨some "ABC", [.otherC 7], "st"⟩, none, none, none, none, "x"⟩,
           ⟨some ⟨some "zzz", [.otherC 8], "st2"⟩, none, none, none, none, "y"⟩], none, "e"⟩]
        "abc" "gone").2 = true ∧
      detect ⟨true, true,
        some (replaceToolOutput
          [⟨"user", .arrC
            [⟨some ⟨some "ABC", [.otherC 7], "st"⟩, none, none, none, none, "x"⟩,
             ⟨some ⟨some "zzz", [.otherC 8], "st2"⟩, none, none, none, none, "y"⟩], none, "e"⟩]
          "abc" "gone").1⟩ = true := by
  constructor
  · exact (c4_replaceToolOutput
        [⟨"user", .arrC
          [⟨some ⟨some "ABC", [.otherC 7], "st"⟩, none, none, none, none, "x"⟩,
           ⟨some ⟨some "zzz", [.otherC 8], "st2"⟩, none, none, none, none, "y"⟩], none, "e"⟩]
        "abc" "gone").2.1.mpr
      ⟨_, List.mem_singleton.mpr rfl, rfl, _, rfl,
        ⟨some ⟨some "ABC", [.otherC 7], "st"⟩, none, none, none, none, "x"⟩,
        by decide, by decide⟩
  · exact (c4_replaceToolOutput
        [⟨"user", .arrC
          [⟨some ⟨some "ABC", [.otherC 7], "st"⟩, none, none, none, none, "x"⟩,
           ⟨some ⟨some "zzz", [.otherC 8], "st2"⟩, none, none, none, none, "y"⟩], none, "e"⟩]
        "abc" "gone").2.2.2
      ⟨true, true,
        some [⟨"user", .arrC
          [⟨some ⟨some "ABC", [.otherC 7], "st"⟩, none, none, none, none, "x"⟩,
           ⟨some ⟨some "zzz", [.otherC 8], "st2"⟩, none, none, none, none, "y"⟩], none, "e"⟩]⟩
      (by decide)

/-! ## C7 — `injectSynth` idempotence -/

theorem strContains_append_self (a b : String) : strContains (a ++ b) b = true := by
  simp only [strContains, String.data_append, decide_eq_true_eq]
  exact (List.suffix_append a.data b.data).isInfix

theorem strContains_self (s : String) : strContains s s = true := by
  simp [strContains]

theorem injectSynthRev_cons (instruction nudgeText : String) (m : WMsg)
    (rest : List WMsg) :
    injectSynthRev instruction nudgeText (m :: rest) =
      if m.role = "user" ∧ ¬ isNudgeMessage m nudgeText then
        match m.content with
        | .strC c =>
          if strContains c instruction then (m :: rest, false)
          else ({ m with content := .strC (c ++ "\n\n" ++ instruction) } :: rest, true)
        | .arrC blocks =>
          if blocks.any (fun b =>
              decide (b.btype = some "text") &&
                match b.text with
                | some t => strContains t instruction
                | none => false) then
            (m :: rest, false)
          else ({ m with content := .arrC (blocks ++ [textBlock instruction]) } :: rest, true)
        | .otherWC _ => (m :: rest, true)
      else
        (m :: (injectSynthRev instruction nudgeText rest).1,
          (injectSynthRev instruction nudgeText rest).2) := rfl

theorem injectSynthRev_idem (instruction nudgeText : String)
    (hN : strContains nudgeText instruction = false) :
    ∀ l : List WMsg, (∀ m ∈ l, contentOk m = true) →
      injectSynthRev instruction nudgeText (injectSynthRev instruction nudgeText l).1 =
        ((injectSynthRev instruction nudgeText l).1, false) := by
  intro l
  induction l with
  | nil => intro _; rfl
  | cons m rest ih =>
    intro hok
    rw [injectSynthRev_cons]
    by_cases hcond : m.role = "user" ∧ ¬ isNudgeMessage m nudgeText
    · rw [if_pos hcond]
      cases hc : m.content with
      | strC c =>
        dsimp only
        by_cases hin : strContains c instruction = true
        · rw [if_pos hin]
          rw [injectSynthRev_cons, if_pos hcond, hc]
          dsimp only
          rw [if_pos hin]
        · rw [if_neg hin]
          have hgrow : strContains (c ++ "\n\n" ++ instruction) instruction = true :=
            strContains_append_self (c ++ "\n\n") instruction
          have hne : ¬ (c ++ "\n\n" ++ instruction = nudgeText) := by
            intro heq
            rw [heq] at hgrow
            rw [hgrow] at hN
            exact absurd hN (by decide)
          have hnudge :
              isNudgeMessage { m with content := .strC (c ++ "\n\n" ++ instruction) }
                nudgeText = false := by
            simp [isNudgeMessage, hne]
          rw [injectSynthRev_cons,
            if_pos ⟨hcond.1, fun hh => Bool.false_ne_true (hnudge ▸ hh)⟩]
          dsimp only
          rw [if_pos hgrow]
      | arrC blocks =>
        dsimp only
        by_cases hin : (blocks.any (fun b =>
            decide (b.btype = some "text") &&
              match b.text with
              | some t => strContains t instruction
              | none => false)) = true
        · rw [if_pos hin]
          rw [injectSynthRev_cons, if_pos hcond, hc]
          dsimp only
          rw [if_pos hin]
        · rw [if_neg hin]
          have hnudge :
              isNudgeMessage { m with content := .arrC (blocks ++ [textBlock instruction]) }
                nudgeText = false := rfl
          rw [injectSynthRev_cons,
            if_pos ⟨hcond.1, fun hh => Bool.false_ne_true (hnudge ▸ hh)⟩]
          dsimp only
          have hany : ((blocks ++ [textBlock instruction]).any (fun b =>
              decide (b.btype = some "text") &&
                match b.text with
                | some t => strContains t instruction
                | none => false)) = true := by
            rw [List.any_append]
            have h2 : (([textBlock instruction] : List Block).any (fun b =>
                decide (b.btype = some "text") &&
                  match b.text with
                  | some t => strContains t instruction
                  | none => false)) = true := by
              simp [textBlock, strContains_self]
            rw [h2, Bool.or_true]
          rw [if_pos hany]
      | otherWC n =>
        have := hok m (List.mem_cons_self m rest)
        rw [contentOk, hc] at this
        cases this
    · rw [if_neg hcond]
      dsimp only
      rw [injectSynthRev_cons, if_neg hcond,
        ih (fun x hx => hok x (List.mem_cons_of_mem m hx))]

/-- C7, counterexample: with messages `[user "c", user "a"]`,
instruction `"b"` and nudge text `"a\n\nb"`, the first run rewrites the
last user message into exactly the nudge text, so the second run skips
it as a nudge, modifies the earlier user message as well, and returns
`true` — the claim fails both its "modifies at most once" part and its
"second run returns false with the sequence unchanged" part. -/
theorem c7_counterexample :
    ((injectSynth (injectSynth
          [⟨"user", .strC "c", none, ""⟩, ⟨"user", .strC "a", none, ""⟩]
          "b" "a\n\nb").1 "b" "a\n\nb").2 = true ∧
      (injectSynth (injectSynth
          [⟨"user", .strC "c", none, ""⟩, ⟨"user", .strC "a", none, ""⟩]
          "b" "a\n\nb").1 "b" "a\n\nb").1 ≠
        (injectSynth
          [⟨"user", .strC "c", none, ""⟩, ⟨"user", .strC "a", none, ""⟩]
          "b" "a\n\nb").1) := by
  exact ⟨by decide, by decide⟩

/-- C7, amended: `injectSynth` appends the instruction to the most
recent user message whose string content is not exactly the nudge text,
returning `false` and leaving the sequence unchanged when that message
already contains the instruction; and provided every message content is
a string or an array and the nudge text does not contain the
instruction, running it twice changes the sequence at most once: the
second run returns `false` and leaves the sequence exactly as after the
first run. -/
theorem c7_inject_idempotent (messages : List WMsg) (instruction nudgeText : String)
    (hok : ∀ m ∈ messages, contentOk m = true)
    (hN : strContains nudgeText instruction = false) :
    injectSynth (injectSynth messages instruction nudgeText).1 instruction nudgeText =
      ((injectSynth messages instruction nudgeText).1, false) := by
  unfold injectSynth
  dsimp only
  rw [List.reverse_reverse]
  rw [injectSynthRev_idem instruction nudgeText hN messages.reverse
    (fun m hm => hok m (List.mem_reverse.mp hm))]

/-- C7, witness for the amended theorem at a concrete sequence. -/
theorem c7_witness :
    (∀ m ∈ [(⟨"user", .strC "hello", none, ""⟩ : WMsg)], contentOk m = true) ∧
      injectSynth (injectSynth [⟨"user", .strC "hello", none, ""⟩] "note" "zz").1
          "note" "zz" =
        ((injectSynth [⟨"user", .strC "hello", none, ""⟩] "note" "zz").1, false) :=
  ⟨by decide,
    c7_inject_idempotent [⟨"user", .strC "hello", none, ""⟩] "note" "zz"
      (by decide) (by decide)⟩


/-! ## C8 — case-insensitivity of identifier handling -/

theorem lowerStr_empty_iff {s t : String} (h : lowerStr s = lowerStr t) :
    s = "" ↔ t = "" := by
  have hd : s.data.map Char.toLower = t.data.map Char.toLower := congrArg String.data h
  constructor
  · intro hs
    subst hs
    have ht : t.data = [] := by
      have := hd.symm
      simpa using this
    cases t
    simp_all
  · intro ht
    subst ht
    have hs : s.data = [] := by
      simpa using hd
    cases s
    simp_all

theorem foldl_congr_forall2 {α β : Type} {r : β → β → Prop} {f : α → β → α}
    (h : ∀ acc x y, r x y → f acc x = f acc y) :
    ∀ {as bs : List β}, List.Forall₂ r as bs → ∀ acc, as.foldl f acc = bs.foldl f acc := by
  intro as bs hab
  induction hab with
  | nil => intro acc; rfl
  | cons hxy _ ih =>
    intro acc
    rw [List.foldl_cons, List.foldl_cons, h acc _ _ hxy]
    exact ih _

theorem cacheToolParametersBedrock_eqv {data data' : List WMsg}
    (hdd : eqvData data data') (tp : ToolParams) :
    cacheToolParametersBedrock data tp = cacheToolParametersBedrock data' tp := by
  unfold cacheToolParametersBedrock
  refine foldl_congr_forall2 ?_ hdd tp
  intro acc m m2 hm
  obtain ⟨hrole, hcont, _, _⟩ := hm
  rw [hrole]
  by_cases hr : m2.role = "assistant"
  case neg => rw [if_neg hr, if_neg hr]
  rw [if_pos hr, if_pos hr]
  cases hc : m.content <;> cases hc2 : m2.content <;> rw [hc, hc2] at hcont <;>
    try first
    | rfl
    | exact hcont.elim
  dsimp only
  refine foldl_congr_forall2 ?_ hcont acc
  intro tp2 b b2 hb
  obtain ⟨_, htu, _, _, _, _⟩ := hb
  cases hu : b.toolUse <;> cases hu2 : b2.toolUse <;> rw [hu, hu2] at htu <;>
    try first
    | rfl
    | exact htu.elim
  rename_i tu tu2
  obtain ⟨hid, hname, hinput⟩ := htu
  dsimp only
  cases hi : tu.toolUseId <;> cases hi2 : tu2.toolUseId <;> rw [hi, hi2] at hid <;>
    try first
    | rfl
    | exact hid.elim
  rename_i s1 t1
  have hiff := lowerStr_empty_iff hid
  by_cases hs1 : s1 = ""
  · have ht1 : t1 = "" := hiff.mp hs1
    simp [truthyOpt, hs1, ht1]
  · have ht1 : ¬ t1 = "" := fun hh => hs1 (hiff.mpr hh)
    simp only [truthyOpt, Option.getD_some]
    rw [if_pos (by simpa using hs1), if_pos (by simpa using ht1), hid, hname, hinput]

theorem extractToolOutputs_eqv {data data' : List WMsg}
    (hdd : eqvData data data') (tp : ToolParams) :
    extractToolOutputs data tp = extractToolOutputs data' tp := by
  unfold extractToolOutputs
  refine foldl_congr_forall2 ?_ hdd []
  intro acc m m2 hm
  obtain ⟨hrole, hcont, _, _⟩ := hm
  rw [hrole]
  by_cases hr : m2.role = "user"
  case neg => rw [if_neg hr, if_neg hr]
  rw [if_pos hr, if_pos hr]
  cases hc : m.content <;> cases hc2 : m2.content <;> rw [hc, hc2] at hcont <;>
    try first
    | rfl
    | exact hcont.elim
  dsimp only
  refine foldl_congr_forall2 ?_ hcont acc
  intro outs b b2 hb
  obtain ⟨htr, _, _, _, _, _⟩ := hb
  cases hu : b.toolResult <;> cases hu2 : b2.toolResult <;> rw [hu, hu2] at htr <;>
    try first
    | rfl
    | exact htr.elim
  rename_i tr tr2
  obtain ⟨hid, _, _⟩ := htr
  dsimp only
  cases hi : tr.toolUseId <;> cases hi2 : tr2.toolUseId <;> rw [hi, hi2] at hid <;>
    try first
    | rfl
    | exact hid.elim
  rename_i s1 t1
  have hiff := lowerStr_empty_iff hid
  by_cases hs1 : s1 = ""
  · have ht1 : t1 = "" := hiff.mp hs1
    simp [truthyOpt, hs1, ht1]
  · have ht1 : ¬ t1 = "" := fun hh => hs1 (hiff.mpr hh)
    simp only [truthyOpt, Option.getD_some]
    rw [if_pos (by simpa using hs1), if_pos (by simpa using ht1), hid]

/-- C8, counterexample: `trackNewToolResults` does **not** normalize
identifier case.  A tracker that has seen `"abc"` counts `"ABC"` as a
new tool result but not `"abc"`, so the operation's result differs
between an identifier and its case variant. -/
theorem c8_counterexample :
    lowerStr "ABC" = lowerStr "abc" ∧
      (trackNewToolResults [⟨"tool", .otherWC 0, some "ABC", ""⟩]
          ⟨["abc"], 0, none⟩ []).2 = 1 ∧
      (trackNewToolResults [⟨"tool", .otherWC 0, some "abc", ""⟩]
          ⟨["abc"], 0, none⟩ []).2 = 0 := by
  refine ⟨by decide, by decide, by decide⟩

/-- C8, amended: identifier comparison is case-insensitive in the
Bedrock descriptor's metadata-caching loop, output extraction and output
replacement — ids are lowercased at every lookup and write there, so
each operation's result and state effect are unchanged when any
identifier (argument or in-body) is replaced by a case variant; but
`trackNewToolResults` compares the raw identifiers case-sensitively. -/
theorem c8_case_insensitive (data data' : List WMsg) (tp : ToolParams)
    (s t prunedMessage : String)
    (hst : lowerStr s = lowerStr t) (hdd : eqvData data data') :
    replaceToolOutput data s prunedMessage = replaceToolOutput data t prunedMessage ∧
      cacheToolParametersBedrock data tp = cacheToolParametersBedrock data' tp ∧
      extractToolOutputs data tp = extractToolOutputs data' tp := by
  refine ⟨?_, cacheToolParametersBedrock_eqv hdd tp, extractToolOutputs_eqv hdd tp⟩
  unfold replaceToolOutput
  rw [hst]

/-- C8, witness for the amended theorem: a one-message body whose
`toolUse` and `toolResult` ids differ only in case from the variant
body, and the identifier argument `"X"` versus `"x"`. -/
theorem c8_witness :
    lowerStr "X" = lowerStr "x" ∧
      replaceToolOutput
          [⟨"user", .arrC [⟨some ⟨some "AbC", [.otherC 1], "st"⟩, none, none, none, none, "e"⟩],
            none, "w"⟩] "X" "gone" =
        replaceToolOutput
          [⟨"user", .arrC [⟨some ⟨some "AbC", [.otherC 1], "st"⟩, none, none, none, none, "e"⟩],
            none, "w"⟩] "x" "gone" ∧
      extractToolOutputs
          [⟨"user", .arrC [⟨some ⟨some "AbC", [.otherC 1], "st"⟩, none, none, none, none, "e"⟩],
            none, "w"⟩] [] =
        extractToolOutputs
          [⟨"user", .arrC [⟨some ⟨some "ABC", [.otherC 1], "st"⟩, none, none, none, none, "e"⟩],
            none, "w"⟩] [] := by
  have hdd : eqvData
      [⟨"user", .arrC [⟨some ⟨some "AbC", [.otherC 1], "st"⟩, none, none, none, none, "e"⟩],
        none, "w"⟩]
      [⟨"user", .arrC [⟨some ⟨some "ABC", [.otherC 1], "st"⟩, none, none, none, none, "e"⟩],
        none, "w"⟩] := by
    refine List.Forall₂.cons ?_ List.Forall₂.nil
    refine ⟨rfl, ?_, rfl, rfl⟩
    show List.Forall₂ eqvBlock _ _
    refine List.Forall₂.cons ?_ List.Forall₂.nil
    exact ⟨⟨show lowerStr "AbC" = lowerStr "ABC" by decide, rfl, rfl⟩,
      trivial, rfl, rfl, rfl, rfl⟩
  refine ⟨by decide, ?_, ?_⟩
  · exact (c8_case_insensitive _ _ [] "X" "x" "gone" (by decide) hdd).1
  · exact (c8_case_insensitive _ _ [] "X" "x" "gone" (by decide) hdd).2.2

end DCP
